import Mathlib

/-!
Verification of the LiteFetch request-automation core against its
specification. The development shallowly embeds the three engines:

* the variable resolution engine (src/frontend/src/lib/variables/engine.ts),
* the concurrent bulk execution scheduler
  (src/frontend/src/lib/runtime/requestExecution.ts and
  src/frontend/src/lib/runtime/bulkRun.ts),
* the revision history engine (src/frontend/src/stores/useRunSettingsStore.ts,
  second store in that file, and src/frontend/src/lib/history/requestRevisions.ts).

JS numbers that only ever hold HTTP status codes are embedded as Int,
counters and lengths as Nat, optional JS values as Option. TS string maps
(Record<string, T>) are embedded as association lists looked up by first
key. All definitions are executable so theorems can be instantiated on
concrete inputs by kernel evaluation.
-/

namespace LiteFetch

/-! ## Variable resolution engine (engine.ts)

The TS field `syntax` of VariableToken is a reserved word of this
development's host language and is rendered `syn`.
-/

inductive TokenSyntax where
  | doubleCurly
  | dollarBrace
deriving DecidableEq, Repr

inductive VariableSource where
  | environment
  | localVar
deriving DecidableEq, Repr

structure VariableToken where
  raw : String
  key : String
  syn : TokenSyntax
  index : Nat
deriving DecidableEq, Repr

structure VariableResolution where
  key : String
  value : String
  source : VariableSource
deriving DecidableEq, Repr

/-- `VariableContext` of engine.ts. `values` embeds the JS object
`Record<string, string>`: an entry `(k, none)` models a key explicitly
holding `null`/`undefined`, `(k, some v)` a key holding the string `v`,
and a missing key models an absent property. `sourceByKey` is the optional
`sourceByKey?` object. -/
structure VariableContext where
  values : List (String × Option String)
  sourceByKey : Option (List (String × VariableSource))
deriving DecidableEq, Repr

/-- Reading `values[key]` off the JS object: `none` when the property is
absent, otherwise the stored (possibly nullish) value. -/
def lookupValue (values : List (String × Option String)) (k : String) :
    Option (Option String) :=
  values.lookup k

/-- Lines 51-62 of engine.ts (`resolveVariableToken`): `value == null`
(absent property, or a nullish stored value) yields `null`; the source
falls back to `'local'` when `sourceByKey` is absent or has no entry. -/
def resolveVariableToken (token : VariableToken) (ctx : VariableContext) :
    Option VariableResolution :=
  match lookupValue ctx.values token.key with
  | none => none
  | some none => none
  | some (some v) =>
    some { key := token.key, value := v,
           source := ((ctx.sourceByKey.bind (fun m => m.lookup token.key)).getD
             VariableSource.localVar) }

/-- The character class `[a-zA-Z0-9_.-]` of the two token regexes. -/
def isKeyChar (c : Char) : Bool :=
  c.isAlphanum || c = '_' || c = '.' || c = '-'

/-- The regex class `\s` restricted to its ASCII members, which is all the
engine's inputs use. -/
def isJsSpace (c : Char) : Bool :=
  c = ' ' || c = '\t' || c = '\n' || c = '\r' || c = '\x0b' || c = '\x0c'

/-- A successful regex match at the head of `l`: the matched span `raw`,
the captured `key`, and the remaining input `rest`, together with the
facts (used for termination and for the substitution proofs) that the
match splits `l` and consumes at least one character. -/
structure TokenMatch (l : List Char) where
  raw : List Char
  key : String
  rest : List Char
  consumed : l = raw ++ rest
  pos : 0 < raw.length

/-- Matching `/\{\{\s*([a-zA-Z0-9_.-]+)\s*\}\}/` at the head of the input.
The character classes of the regex are pairwise disjoint and exclude the
braces, so greedy matching without backtracking is exact. -/
def matchDouble : (l : List Char) → Option (TokenMatch l)
  | c1 :: c2 :: r0 =>
    if c1 = '{' ∧ c2 = '{' then
      match h1 : r0.dropWhile isJsSpace with
      | r1 =>
        match h2 : r1.dropWhile isKeyChar with
        | r2 =>
          if hk : r1.takeWhile isKeyChar = [] then none
          else
            match h3 : r2.dropWhile isJsSpace with
            | '}' :: '}' :: rest =>
              some { raw := c1 :: c2 :: (r0.takeWhile isJsSpace ++
                       r1.takeWhile isKeyChar ++ r2.takeWhile isJsSpace ++ ['}', '}']),
                     key := String.mk (r1.takeWhile isKeyChar),
                     rest := rest,
                     consumed := by
                       have e0 : r0.takeWhile isJsSpace ++ r1 = r0 := by
                         rw [← h1]; exact List.takeWhile_append_dropWhile _ _
                       have e1 : r1.takeWhile isKeyChar ++ r2 = r1 := by
                         rw [← h2]; exact List.takeWhile_append_dropWhile _ _
                       have e2 : r2.takeWhile isJsSpace ++ ('}' :: '}' :: rest) = r2 := by
                         rw [← h3]; exact List.takeWhile_append_dropWhile _ _
                       simp only [List.cons_append, List.append_assoc]
                       simp only [List.cons_append, List.nil_append] at e2 ⊢
                       rw [e2, e1, e0]
                     pos := by simp }
            | _ => none
    else none
  | _ => none

/-- Matching `/\$\{\s*([a-zA-Z0-9_.-]+)\s*\}/` at the head of the input. -/
def matchDollar : (l : List Char) → Option (TokenMatch l)
  | c1 :: c2 :: r0 =>
    if c1 = '$' ∧ c2 = '{' then
      match h1 : r0.dropWhile isJsSpace with
      | r1 =>
        match h2 : r1.dropWhile isKeyChar with
        | r2 =>
          if hk : r1.takeWhile isKeyChar = [] then none
          else
            match h3 : r2.dropWhile isJsSpace with
            | '}' :: rest =>
              some { raw := c1 :: c2 :: (r0.takeWhile isJsSpace ++
                       r1.takeWhile isKeyChar ++ r2.takeWhile isJsSpace ++ ['}']),
                     key := String.mk (r1.takeWhile isKeyChar),
                     rest := rest,
                     consumed := by
                       have e0 : r0.takeWhile isJsSpace ++ r1 = r0 := by
                         rw [← h1]; exact List.takeWhile_append_dropWhile _ _
                       have e1 : r1.takeWhile isKeyChar ++ r2 = r1 := by
                         rw [← h2]; exact List.takeWhile_append_dropWhile _ _
                       have e2 : r2.takeWhile isJsSpace ++ ('}' :: rest) = r2 := by
                         rw [← h3]; exact List.takeWhile_append_dropWhile _ _
                       simp only [List.cons_append, List.append_assoc]
                       simp only [List.cons_append, List.nil_append] at e2 ⊢
                       rw [e2, e1, e0]
                     pos := by simp }
            | _ => none
    else none
  | _ => none

/-- The matcher of each token syntax. -/
def tokenMatch (syn : TokenSyntax) : (l : List Char) → Option (TokenMatch l) :=
  match syn with
  | TokenSyntax.doubleCurly => matchDouble
  | TokenSyntax.dollarBrace => matchDollar

/-- Adding a key to the JS `Set` of unresolved keys: insertion order is kept,
a repeated key is dropped (first occurrence wins, as `Array.from(set)`). -/
def insertUnique (seen : List String) (x : String) : List String :=
  if seen.contains x then seen else seen ++ [x]

/-- `Array.from` of the `Set` built by adding the listed keys in order. -/
def dedupFirst (keys : List String) : List String :=
  keys.foldl insertUnique []

/-- One global-replace pass `text.replace(re, replacer)` with the replacer of
lines 82-89 of engine.ts: scan left to right; at a match substitute the
context value when it is non-nullish, otherwise keep the matched text
verbatim and record the key; replacement text is not rescanned within the
pass (JS `String.replace` semantics). The second component lists the keys
the replacer recorded, in match order and with repetitions. The `fuel`
argument makes the recursion structural; a match consumes at least one
character, so fuel `l.length` never runs out. -/
def replacePassGo (syn : TokenSyntax) (values : List (String × Option String)) :
    Nat → List Char → List Char × List String
  | 0, l => (l, [])
  | _ + 1, [] => ([], [])
  | fuel + 1, c :: cs =>
    match tokenMatch syn (c :: cs) with
    | some m =>
      match lookupValue values m.key with
      | some (some v) =>
        let r := replacePassGo syn values fuel m.rest
        (v.data ++ r.1, r.2)
      | _ =>
        let r := replacePassGo syn values fuel m.rest
        (m.raw ++ r.1, m.key :: r.2)
    | none =>
      let r := replacePassGo syn values fuel cs
      (c :: r.1, r.2)

def replacePass (syn : TokenSyntax) (values : List (String × Option String))
    (l : List Char) : List Char × List String :=
  replacePassGo syn values l.length l

/-- Lines 75-94 of engine.ts (`resolveTemplateText`): empty input short-
circuits; otherwise the double-curly pass runs over the input and the
dollar-brace pass runs over the FIRST PASS'S OUTPUT, both feeding one
shared `Set` of unresolved keys. -/
def resolveTemplateText (input : String) (ctx : VariableContext) :
    String × List String :=
  if input = "" then ("", [])
  else
    let p1 := replacePass TokenSyntax.doubleCurly ctx.values input.data
    let p2 := replacePass TokenSyntax.dollarBrace ctx.values p1.1
    (String.mk p2.1, dedupFirst (p1.2 ++ p2.2))

/-- Trying the double-curly syntax first, then the dollar-brace syntax, at
one position. The two syntaxes cannot match at the same position (their
opening characters differ) and their matched spans cannot overlap, so this
realizes the position-merged token order of the spec. -/
def matchEither (l : List Char) : Option (TokenMatch l) :=
  match matchDouble l with
  | some m => some m
  | none => matchDollar l

/-- Modelled from the spec: "output: text with all resolvable tokens
substituted in place, unresolved: list of keys that could not be
substituted. Unresolvable tokens are left verbatim in output." One
simultaneous left-to-right pass over the INPUT substitutes each of the
input's tokens (both syntaxes, in position order) by its context value and
keeps unresolvable tokens verbatim; substituted values are never
rescanned. This is the specification-side rendering the implementation is
compared against. -/
def specRenderGo (values : List (String × Option String)) :
    Nat → List Char → List Char × List String
  | 0, l => (l, [])
  | _ + 1, [] => ([], [])
  | fuel + 1, c :: cs =>
    match matchEither (c :: cs) with
    | some m =>
      match lookupValue values m.key with
      | some (some v) =>
        let r := specRenderGo values fuel m.rest
        (v.data ++ r.1, r.2)
      | _ =>
        let r := specRenderGo values fuel m.rest
        (m.raw ++ r.1, m.key :: r.2)
    | none =>
      let r := specRenderGo values fuel cs
      (c :: r.1, r.2)

def specRenderL (values : List (String × Option String)) (l : List Char) :
    List Char × List String :=
  specRenderGo values l.length l

def specRender (input : String) (ctx : VariableContext) : String × List String :=
  let r := specRenderL ctx.values input.data
  (String.mk r.1, dedupFirst r.2)

/-- One regex scan of `pushMatches` (lines 25-40 of engine.ts): emit a token
at each match and resume after it (`re.exec` advances `lastIndex` past the
match), else advance one position. -/
def scanTokensGo (syn : TokenSyntax) :
    Nat → Nat → List Char → List VariableToken
  | 0, _, _ => []
  | _ + 1, _, [] => []
  | fuel + 1, pos, c :: cs =>
    match tokenMatch syn (c :: cs) with
    | some m =>
      { raw := String.mk m.raw, key := m.key, syn := syn, index := pos } ::
        scanTokensGo syn fuel (pos + m.raw.length) m.rest
    | none => scanTokensGo syn fuel (pos + 1) cs

def scanTokens (syn : TokenSyntax) (l : List Char) : List VariableToken :=
  scanTokensGo syn l.length 0 l

/-- Stable merge by ascending `index`, the effect of the stable
`tokens.sort((a, b) => a.index - b.index)` on the concatenation of the two
already-ascending scans (ties are impossible: the syntaxes' opening
characters differ). -/
def mergeByIndexGo : Nat → List VariableToken → List VariableToken → List VariableToken
  | 0, xs, ys => xs ++ ys
  | _ + 1, [], ys => ys
  | _ + 1, x :: xs, [] => x :: xs
  | fuel + 1, x :: xs, y :: ys =>
    if x.index ≤ y.index then x :: mergeByIndexGo fuel xs (y :: ys)
    else y :: mergeByIndexGo fuel (x :: xs) ys

/-- Lines 42-50 of engine.ts (`extractVariableTokens`); the coercion of
non-string input to text is outside this embedding (inputs are strings). -/
def extractVariableTokens (input : String) : List VariableToken :=
  if input = "" then []
  else
    let ds := scanTokens TokenSyntax.doubleCurly input.data
    let bs := scanTokens TokenSyntax.dollarBrace input.data
    mergeByIndexGo (ds.length + bs.length) ds bs

/-- Lines 64-74 of engine.ts (`findUnresolvedVariables`). -/
def findUnresolvedVariables (input : String) (ctx : VariableContext) :
    List String :=
  dedupFirst ((extractVariableTokens input).filterMap
    (fun t => match resolveVariableToken t ctx with
              | none => some t.key
              | some _ => none))

/-! ## Concurrent bulk execution scheduler (requestExecution.ts)

`runWithConcurrency` drives `limit` cooperative workers over a shared
cursor. The embedding is a small-step system: a state records the cursor,
each worker's status, and the settled results; one step lets one chosen
worker either claim the next index (`const idx = cursor; cursor += 1`,
going to `done` when `idx >= items.length`) or finish its claimed item
(record the settlement at that index and loop back to idle). A run is a
list of scheduler choices (which worker moves), covering every possible
interleaving of the single-threaded event loop. The per-index completion
`compl i` packages everything item `i`'s worker invocation produces; for
plain `runWithConcurrency` it is the item's settlement. -/

/-- A `PromiseSettledResult`: rejection reasons are embedded as strings
(`String(reason)` is all the consumer ever does with them). -/
inductive Settlement (R : Type) where
  | fulfilled : R → Settlement R
  | rejected : String → Settlement R
deriving DecidableEq, Repr

inductive WorkerStatus where
  | idle
  | busy : Nat → WorkerStatus
  | finished
deriving DecidableEq, Repr

structure SchedState (C : Type) where
  cursor : Nat
  workers : List WorkerStatus
  results : List (Option C)
  finishOrder : List Nat
deriving DecidableEq, Repr

/-- `Math.max(1, Math.min(concurrency, items.length))` (line 7). -/
def clampLimit (concurrency n : Nat) : Nat :=
  max 1 (min concurrency n)

def schedInit (C : Type) (n limit : Nat) : SchedState C :=
  { cursor := 0,
    workers := List.replicate limit WorkerStatus.idle,
    results := List.replicate n none,
    finishOrder := [] }

/-- One scheduler step: worker `w` moves. An idle worker claims the cursor
(lines 13-15: read, increment, retire when past the end, otherwise start
item `idx`); a busy worker completes its item, recording the settlement at
its index (lines 16-21); a retired worker does nothing. -/
def schedStep {C : Type} (compl : Nat → C) (n : Nat) (s : SchedState C)
    (w : Nat) : SchedState C :=
  match s.workers[w]? with
  | some WorkerStatus.idle =>
    if n ≤ s.cursor then
      { s with cursor := s.cursor + 1,
               workers := s.workers.set w WorkerStatus.finished }
    else
      { s with cursor := s.cursor + 1,
               workers := s.workers.set w (WorkerStatus.busy s.cursor) }
  | some (WorkerStatus.busy i) =>
    { s with workers := s.workers.set w WorkerStatus.idle,
             results := s.results.set i (some (compl i)),
             finishOrder := s.finishOrder ++ [i] }
  | _ => s

def schedExec {C : Type} (compl : Nat → C) (n limit : Nat)
    (choices : List Nat) : SchedState C :=
  choices.foldl (schedStep compl n) (schedInit C n limit)

/-- `Promise.all` has resolved: every worker has retired. -/
def isTerminal {C : Type} (s : SchedState C) : Bool :=
  s.workers.all (fun w => w == WorkerStatus.finished)

/-! ## Bulk run (bulkRun.ts)

Hooks are JS callbacks whose per-invocation behaviour (absent, returning,
or throwing) is modelled per item; `HookOutcome.fails msg` models an
invocation whose awaited result throws/rejects with `msg`. For
`onItemError`, which the code fires with `void` and does not await,
`fails` models a SYNCHRONOUS throw — the only failure mode that reaches
the scheduler (an ignored async rejection behaves like `ok`). -/

inductive HookOutcome where
  | ok
  | fails : String → HookOutcome
deriving DecidableEq, Repr

/-- The fields of `RequestResult` (src/unnamed api module) that
`executeBulkRun` reads; the others (headers, body, timestamps, ...) are
never inspected by the engines under verification. -/
structure RequestResult where
  status_code : Int
  duration_ms : Nat
  error : Option String
deriving DecidableEq, Repr

inductive ExecOutcome where
  | returns : RequestResult → ExecOutcome
  | throws : String → ExecOutcome
deriving DecidableEq, Repr

inductive BulkRunStatus where
  | passed
  | failed
deriving DecidableEq, Repr

structure BulkRunReportItem where
  requestId : String
  status : BulkRunStatus
  statusCode : Int
  durationMs : Nat
  error : Option String
deriving DecidableEq, Repr

/-- `BulkRunReport` without `startedAt`/`finishedAt`/`durationMs`, which
are wall-clock reads (`Date.now()`) outside this pure embedding. -/
structure BulkRunReport where
  total : Nat
  passed : Nat
  failed : Nat
  items : List BulkRunReportItem
deriving DecidableEq, Repr

/-- One bulk item together with the behaviour its `execute` closure and
each hook invocation exhibit on this run. -/
structure BulkItemBehavior where
  requestId : String
  startHook : Option HookOutcome
  execute : ExecOutcome
  doneHook : Option HookOutcome
  errorHook : Option HookOutcome
deriving DecidableEq, Repr

inductive HookEvent where
  | start : String → HookEvent
  | done : String → HookEvent
  | error : String → HookEvent
deriving DecidableEq, Repr

/-- `await hooks.h?.(...)`: an absent hook is a no-op that succeeds. -/
def hookRun (h : Option HookOutcome) : HookOutcome :=
  h.getD HookOutcome.ok

/-- The invocation event of an optional hook: present hooks are invoked
(whether or not they then fail), absent ones are not. -/
def hookEvent (h : Option HookOutcome) (ev : HookEvent) : List HookEvent :=
  if h.isSome then [ev] else []

/-- `Boolean(result.error)`: true exactly for a present, non-empty string. -/
def errTruthy : Option String → Bool
  | none => false
  | some s => s ≠ ""

/-- Line 47 of bulkRun.ts:
`const failed = result.status_code >= 400 || Boolean(result.error)`. -/
def classifyFailed (r : RequestResult) : Bool :=
  decide (400 ≤ r.status_code) || errTruthy r.error

/-- What one worker invocation on one item produces: the hook-invocation
events it emitted, its settlement, and the report row it pushed (none when
the invocation rejected before reaching the push). -/
structure BulkItemOutcome where
  events : List HookEvent
  settled : Settlement RequestResult
  push : Option BulkRunReportItem
deriving DecidableEq, Repr

/-- Lines 43-57 of bulkRun.ts, the worker closure: await `onItemStart`,
await `execute`, await `onItemDone`, classify, push the report row, return
the result. A throw at any await rejects the worker's promise there. -/
def runItem (b : BulkItemBehavior) : BulkItemOutcome :=
  let evStart := hookEvent b.startHook (HookEvent.start b.requestId)
  match hookRun b.startHook with
  | HookOutcome.fails e => ⟨evStart, Settlement.rejected e, none⟩
  | HookOutcome.ok =>
    match b.execute with
    | ExecOutcome.throws e => ⟨evStart, Settlement.rejected e, none⟩
    | ExecOutcome.returns r =>
      let evDone := hookEvent b.doneHook (HookEvent.done b.requestId)
      match hookRun b.doneHook with
      | HookOutcome.fails e => ⟨evStart ++ evDone, Settlement.rejected e, none⟩
      | HookOutcome.ok =>
        ⟨evStart ++ evDone, Settlement.fulfilled r,
         some { requestId := b.requestId,
                status := if classifyFailed r then BulkRunStatus.failed
                          else BulkRunStatus.passed,
                statusCode := r.status_code,
                durationMs := r.duration_ms,
                error := r.error }⟩

def defaultBulkItem : BulkItemBehavior :=
  ⟨"", none, ExecOutcome.throws "", none, none⟩

/-- The completion of index `i` in `executeBulkRun`'s call to
`runWithConcurrency`. -/
def bulkCompl (items : List BulkItemBehavior) (i : Nat) : BulkItemOutcome :=
  runItem (items.getD i defaultBulkItem)

/-- A settled async computation, `DecidableEq` flavour of `Except`. -/
inductive RunExcept (β : Type) where
  | ok : β → RunExcept β
  | err : String → RunExcept β
deriving DecidableEq, Repr

/-- `items[idx]?.requestId || ` item-idx (line 60): the fallback also
fires on an empty id, `||` being falsy on `''`. -/
def errorRowId (items : List BulkItemBehavior) (idx : Nat) : String :=
  match items[idx]? with
  | none => "item-" ++ toString idx
  | some b => if b.requestId = "" then "item-" ++ toString idx else b.requestId

/-- The failed report row pushed for a rejected settlement
(lines 62-68 of bulkRun.ts). -/
def errorRow (items : List BulkItemBehavior) (idx : Nat) (reason : String) :
    BulkRunReportItem :=
  { requestId := errorRowId items idx,
    status := BulkRunStatus.failed,
    statusCode := 0,
    durationMs := 0,
    error := some reason }

/-- The `.then` callback (lines 58-71): walk the settlements in index
order; for each rejected one fire `onItemError` (un-awaited `void` call —
a synchronous throw aborts the walk and rejects the whole run) and push a
failed row. Returns the pushed rows and the hook events. -/
def thenPhase (items : List BulkItemBehavior) :
    List (Nat × Settlement RequestResult) →
    RunExcept (List BulkRunReportItem × List HookEvent)
  | [] => RunExcept.ok ([], [])
  | (_, Settlement.fulfilled _) :: rest => thenPhase items rest
  | (idx, Settlement.rejected reason) :: rest =>
    let b := items.getD idx defaultBulkItem
    match hookRun b.errorHook with
    | HookOutcome.fails e => RunExcept.err e
    | HookOutcome.ok =>
      match thenPhase items rest with
      | RunExcept.err e => RunExcept.err e
      | RunExcept.ok (rows, evs) =>
        RunExcept.ok (errorRow items idx reason :: rows,
          hookEvent b.errorHook (HookEvent.error (errorRowId items idx)) ++ evs)

/-- The settlement recorded at index `i` of a terminal scheduler state. -/
def settledAt (s : SchedState BulkItemOutcome) (i : Nat) :
    Settlement RequestResult :=
  match s.results.getD i none with
  | some o => o.settled
  | none => Settlement.rejected "pending"

/-- Lines 33-86 of bulkRun.ts (`executeBulkRun`) run to completion under
the scheduler choices `choices`: `none` when the choices do not drive the
run to completion, otherwise the report (and the full hook-event trace: the
worker-phase events in completion order, then the error-phase events in
index order), or the rejection a synchronously-throwing `onItemError`
caused. `startedAt`/`finishedAt`/`durationMs` are wall-clock reads, not
embedded. -/
def executeBulkRunFull (items : List BulkItemBehavior) (concurrency : Nat)
    (choices : List Nat) :
    Option (RunExcept (BulkRunReport × List HookEvent)) :=
  let n := items.length
  let s := schedExec (bulkCompl items) n (clampLimit concurrency n) choices
  if isTerminal s then
    let phase1rows := s.finishOrder.filterMap (fun i => (bulkCompl items i).push)
    let phase1evs := (s.finishOrder.map (fun i => (bulkCompl items i).events)).flatten
    match thenPhase items ((List.range n).map (fun i => (i, settledAt s i))) with
    | RunExcept.err e => some (RunExcept.err e)
    | RunExcept.ok (rows2, evs2) =>
      let allRows := phase1rows ++ rows2
      let passed := (allRows.filter
        (fun i => i.status == BulkRunStatus.passed)).length
      some (RunExcept.ok
        ({ total := items.length,
           passed := passed,
           failed := allRows.length - passed,
           items := allRows },
         phase1evs ++ evs2))
  else none

def executeBulkRunModel (items : List BulkItemBehavior) (concurrency : Nat)
    (choices : List Nat) : Option (RunExcept BulkRunReport) :=
  (executeBulkRunFull items concurrency choices).map
    (fun r => match r with
              | RunExcept.ok p => RunExcept.ok p.1
              | RunExcept.err e => RunExcept.err e)

def bulkRunEvents (items : List BulkItemBehavior) (concurrency : Nat)
    (choices : List Nat) : Option (RunExcept (List HookEvent)) :=
  (executeBulkRunFull items concurrency choices).map
    (fun r => match r with
              | RunExcept.ok p => RunExcept.ok p.2
              | RunExcept.err e => RunExcept.err e)

/-- The hook events one item experiences across both phases: its worker
invocation's events, then — when its worker promise rejected — the
`onItemError` invocation of the `.then` walk. -/
def itemTrace (b : BulkItemBehavior) : List HookEvent :=
  (runItem b).events ++
    match (runItem b).settled with
    | Settlement.fulfilled _ => []
    | Settlement.rejected _ => hookEvent b.errorHook (HookEvent.error b.requestId)

/-! ## Revision history engine (useRunSettingsStore.ts, requestRevisions.ts)

Snapshot contents are opaque to the store: it only deep-clones them
(`structuredClone`, the identity on values) and fingerprints them with
`getRevisionSnapshotHash`, a pure function of the snapshot. The embedding
is generic over the snapshot type `σ` and the hash function `h`. Each
store operation reads and rewrites `byRequest[requestId]`; the embedding
gives the per-entity transformation on `Option (RevisionState σ)` (absent
entry = `none`). `timestamp` is `Date.now()`, passed in as `now`. -/

def cloneRevisionSnapshot {σ : Type} (snap : σ) : σ := snap

def MAX_REVISIONS_PER_REQUEST : Nat := 30

structure RevisionEntry (σ : Type) where
  snapshot : σ
  hash : String
  timestamp : Nat
deriving DecidableEq, Repr

structure RevisionState (σ : Type) where
  entries : List (RevisionEntry σ)
  index : Nat
deriving DecidableEq, Repr

def createEntry {σ : Type} (h : σ → String) (snap : σ) (now : Nat) :
    RevisionEntry σ :=
  { snapshot := cloneRevisionSnapshot snap, hash := h snap, timestamp := now }

/-- Lines 146-155 of the revision store (`captureSnapshot`, capture
branch): truncate to `[0..index]`, append, cap at 30 keeping the most
recent entries (`appended.slice(appended.length - MAX)`), point `index`
at the last entry. -/
def capturePush {σ : Type} (h : σ → String) (current : RevisionState σ)
    (snap : σ) (now : Nat) : RevisionState σ :=
  let appended := current.entries.take (current.index + 1) ++ [createEntry h snap now]
  let capped := if MAX_REVISIONS_PER_REQUEST < appended.length
    then appended.drop (appended.length - MAX_REVISIONS_PER_REQUEST)
    else appended
  { entries := capped, index := capped.length - 1 }

/-- Lines 127-156 (`captureSnapshot`): seed when no state exists; no-op
when the hash equals the hash of the entry at `index`; else capture. -/
def captureSnapshot {σ : Type} (h : σ → String)
    (cur : Option (RevisionState σ)) (snap : σ) (now : Nat) : RevisionState σ :=
  match cur with
  | none => { entries := [createEntry h snap now], index := 0 }
  | some current =>
    match current.entries.get? current.index with
    | some active =>
      if active.hash = h snap then current
      else capturePush h current snap now
    | none => capturePush h current snap now

def initRequestHistory {σ : Type} (h : σ → String) (snap : σ) (now : Nat) :
    RevisionState σ :=
  { entries := [createEntry h snap now], index := 0 }

def canUndo {σ : Type} (cur : Option (RevisionState σ)) : Bool :=
  match cur with
  | none => false
  | some c => 0 < c.index

def canRedo {σ : Type} (cur : Option (RevisionState σ)) : Bool :=
  match cur with
  | none => false
  | some c => c.index < c.entries.length - 1

/-- Lines 168-180 (`undo`): missing state or `index <= 0` is a silent
no-op returning `null`; otherwise move `index` back one and return a deep
copy of that entry's snapshot. A missing entry at the target (possible
only when the documented index invariant is already violated; the JS
would throw there) is embedded as a no-op. -/
def undo {σ : Type} (cur : Option (RevisionState σ)) :
    Option σ × Option (RevisionState σ) :=
  match cur with
  | none => (none, none)
  | some current =>
    if current.index = 0 then (none, some current)
    else
      match current.entries.get? (current.index - 1) with
      | some entry =>
        (some (cloneRevisionSnapshot entry.snapshot),
         some { current with index := current.index - 1 })
      | none => (none, some current)

/-- Lines 182-194 (`redo`): the mirror image, a silent no-op at the newest
entry (`index >= entries.length - 1`). -/
def redo {σ : Type} (cur : Option (RevisionState σ)) :
    Option σ × Option (RevisionState σ) :=
  match cur with
  | none => (none, none)
  | some current =>
    if current.entries.length - 1 ≤ current.index then (none, some current)
    else
      match current.entries.get? (current.index + 1) with
      | some entry =>
        (some (cloneRevisionSnapshot entry.snapshot),
         some { current with index := current.index + 1 })
      | none => (none, some current)

/-- The invariant the pull-based worker pool maintains: busy workers hold
pairwise distinct, not-yet-written indices below the cursor; every index
below the cursor is either being worked or already settled in its own
slot; indices the cursor has not reached are unwritten; a retired worker
witnesses that the cursor has passed the end; `finishOrder` lists exactly
the settled indices, each once. -/
structure SchedInv {C : Type} (compl : Nat → C) (n limit : Nat)
    (s : SchedState C) : Prop where
  workersLen : s.workers.length = limit
  resultsLen : s.results.length = n
  busyBound : ∀ (w i : Nat), s.workers[w]? = some (WorkerStatus.busy i) →
    i < n ∧ i < s.cursor
  busyUnset : ∀ (w i : Nat), s.workers[w]? = some (WorkerStatus.busy i) →
    s.results[i]? = some none
  busyDistinct : ∀ (w wb i : Nat), w ≠ wb →
    s.workers[w]? = some (WorkerStatus.busy i) →
    s.workers[wb]? = some (WorkerStatus.busy i) → False
  claimed : ∀ i : Nat, i < n → i < s.cursor →
    (∃ w : Nat, s.workers[w]? = some (WorkerStatus.busy i)) ∨
      s.results[i]? = some (some (compl i))
  unclaimed : ∀ i : Nat, i < n → s.cursor ≤ i → s.results[i]? = some none
  finishedCursor : ∀ w : Nat, s.workers[w]? = some WorkerStatus.finished →
    n ≤ s.cursor
  finishNodup : s.finishOrder.Nodup
  finishMem : ∀ i : Nat, i ∈ s.finishOrder ↔
    (i < n ∧ s.results[i]? = some (some (compl i)))

/-- Whether a settlement is a rejection (`entry.status !== 'fulfilled'`). -/
def settlementRejected {R : Type} : Settlement R → Bool
  | Settlement.rejected _ => true
  | Settlement.fulfilled _ => false

/-! ## Theorems -/

/-- C9: a token resolves to nothing exactly when `values` has no usable
entry for its key — a missing property or a nullish stored value — while
any stored string, the empty string included, yields a resolution carrying
that string. -/
theorem resolveVariableToken_absent_iff (token : VariableToken)
    (ctx : VariableContext) :
    (resolveVariableToken token ctx = none ↔
      (lookupValue ctx.values token.key = none ∨
       lookupValue ctx.values token.key = some none)) ∧
    (∀ v : String, lookupValue ctx.values token.key = some (some v) →
      ∃ res : VariableResolution, resolveVariableToken token ctx = some res ∧
        res.key = token.key ∧ res.value = v) := by
  rcases h : lookupValue ctx.values token.key with _ | ov
  · simp [resolveVariableToken, h]
  · rcases ov with _ | v
    · simp [resolveVariableToken, h]
    · refine ⟨by simp [resolveVariableToken, h], ?_⟩
      intro v' hv'
      obtain rfl : v = v' := by
        injection hv' with hv''
        injection hv''
      exact ⟨⟨token.key, v,
        (ctx.sourceByKey.bind (fun m => m.lookup token.key)).getD
          VariableSource.localVar⟩,
        by simp [resolveVariableToken, h], rfl, rfl⟩

/-- C9 witness: the empty string counts as present — the key `k` mapped to
`""` resolves with value `""` rather than reporting unresolved. -/
theorem resolveVariableToken_absent_iff_witness :
    ∃ res : VariableResolution,
      resolveVariableToken ⟨"{{k}}", "k", TokenSyntax.doubleCurly, 0⟩
        ⟨[("k", some "")], none⟩ = some res ∧ res.key = "k" ∧ res.value = "" :=
  (resolveVariableToken_absent_iff ⟨"{{k}}", "k", TokenSyntax.doubleCurly, 0⟩
    ⟨[("k", some "")], none⟩).2 "" (by decide)

/-- C5: capturing a snapshot whose hash differs from the active entry's
truncates to `[0..index]`, appends, caps at the 30 most recent entries,
and leaves `index` on the last entry, re-establishing
`index < entries.length`. -/
theorem captureSnapshot_truncate_append_cap {σ : Type} (h : σ → String)
    (st : RevisionState σ) (snap : σ) (now : Nat) (e : RevisionEntry σ)
    (hget : st.entries.get? st.index = some e) (hne : e.hash ≠ h snap) :
    (captureSnapshot h (some st) snap now).entries =
      (if 30 < (st.entries.take (st.index + 1) ++ [createEntry h snap now]).length
       then (st.entries.take (st.index + 1) ++ [createEntry h snap now]).drop
         ((st.entries.take (st.index + 1) ++ [createEntry h snap now]).length - 30)
       else st.entries.take (st.index + 1) ++ [createEntry h snap now]) ∧
    (captureSnapshot h (some st) snap now).index =
      (captureSnapshot h (some st) snap now).entries.length - 1 ∧
    (captureSnapshot h (some st) snap now).index <
      (captureSnapshot h (some st) snap now).entries.length ∧
    (captureSnapshot h (some st) snap now).entries.length ≤ 30 ∧
    (30 < (st.entries.take (st.index + 1) ++ [createEntry h snap now]).length →
      (captureSnapshot h (some st) snap now).entries.length = 30) := by
  have hcap : captureSnapshot h (some st) snap now = capturePush h st snap now := by
    simp only [captureSnapshot, hget]
    rw [if_neg hne]
  rw [hcap]
  simp only [capturePush, MAX_REVISIONS_PER_REQUEST]
  by_cases hex :
      30 < (st.entries.take (st.index + 1) ++ [createEntry h snap now]).length
  · have hlen :
        ((st.entries.take (st.index + 1) ++ [createEntry h snap now]).drop
          ((st.entries.take (st.index + 1) ++ [createEntry h snap now]).length - 30)).length
          = 30 := by
      rw [List.length_drop]
      omega
    simp only [if_pos hex]
    refine ⟨trivial, trivial, ?_, ?_, fun _ => hlen⟩
    · rw [hlen]
      omega
    · rw [hlen]
  · simp only [if_neg hex]
    have hlen : 0 < (st.entries.take (st.index + 1) ++ [createEntry h snap now]).length := by
      simp
    refine ⟨trivial, trivial, ?_, by omega, fun hc => absurd hc hex⟩
    omega

/-- C5 witness: on entries `[e1, e2]` with `index = 0`, capturing a fresh
snapshot discards the redo branch `e2` and appends the new entry. -/
theorem captureSnapshot_truncate_append_cap_witness :
    (captureSnapshot (fun n : Nat => toString n)
        (some ⟨[⟨1, "1", 0⟩, ⟨2, "2", 0⟩], 0⟩) 3 7).entries =
      [⟨1, "1", 0⟩, ⟨3, "3", 7⟩] ∧
    (captureSnapshot (fun n : Nat => toString n)
        (some ⟨[⟨1, "1", 0⟩, ⟨2, "2", 0⟩], 0⟩) 3 7).index <
      (captureSnapshot (fun n : Nat => toString n)
        (some ⟨[⟨1, "1", 0⟩, ⟨2, "2", 0⟩], 0⟩) 3 7).entries.length := by
  have H := captureSnapshot_truncate_append_cap (fun n : Nat => toString n)
    ⟨[⟨1, "1", 0⟩, ⟨2, "2", 0⟩], 0⟩ 3 7 ⟨1, "1", 0⟩ (by decide) (by decide)
  exact ⟨H.1.trans (by decide), H.2.2.1⟩

/-- C6: `undo` at the oldest entry and `redo` at the newest are silent
no-ops that leave the state untouched; otherwise they move `index` by
exactly one and return a deep copy of the snapshot now at `index`. -/
theorem undo_redo_boundary_and_step {σ : Type} (st : RevisionState σ)
    (hinv : st.index < st.entries.length) :
    (st.index = 0 → undo (some st) = (none, some st)) ∧
    (st.index = st.entries.length - 1 → redo (some st) = (none, some st)) ∧
    (st.index ≠ 0 →
      ∃ e : RevisionEntry σ, st.entries.get? (st.index - 1) = some e ∧
        undo (some st) = (some (cloneRevisionSnapshot e.snapshot),
          some { entries := st.entries, index := st.index - 1 })) ∧
    (st.index ≠ st.entries.length - 1 →
      ∃ e : RevisionEntry σ, st.entries.get? (st.index + 1) = some e ∧
        redo (some st) = (some (cloneRevisionSnapshot e.snapshot),
          some { entries := st.entries, index := st.index + 1 })) := by
  refine ⟨?_, ?_, ?_, ?_⟩
  · intro h0
    simp only [undo]
    rw [if_pos h0]
  · intro hl
    simp only [redo]
    rw [if_pos (le_of_eq hl.symm)]
  · intro h0
    have hlt : st.index - 1 < st.entries.length := by omega
    refine ⟨st.entries.get ⟨st.index - 1, hlt⟩, List.get?_eq_get hlt, ?_⟩
    simp only [undo, if_neg h0, List.get?_eq_get hlt]
  · intro hne
    have hlt : st.index + 1 < st.entries.length := by omega
    have hcond : ¬ st.entries.length - 1 ≤ st.index := by omega
    refine ⟨st.entries.get ⟨st.index + 1, hlt⟩, List.get?_eq_get hlt, ?_⟩
    simp only [redo, if_neg hcond, List.get?_eq_get hlt]

/-- C6 witness: on two entries with `index = 1`, `undo` steps back to the
first snapshot and `redo` is a silent no-op. -/
theorem undo_redo_boundary_and_step_witness :
    undo (some (⟨[⟨5, "5", 0⟩, ⟨6, "6", 1⟩], 1⟩ : RevisionState Nat)) =
      (some 5, some ⟨[⟨5, "5", 0⟩, ⟨6, "6", 1⟩], 0⟩) ∧
    redo (some (⟨[⟨5, "5", 0⟩, ⟨6, "6", 1⟩], 1⟩ : RevisionState Nat)) =
      (none, some ⟨[⟨5, "5", 0⟩, ⟨6, "6", 1⟩], 1⟩) := by
  have H := undo_redo_boundary_and_step
    (⟨[⟨5, "5", 0⟩, ⟨6, "6", 1⟩], 1⟩ : RevisionState Nat) (by decide)
  obtain ⟨e, he, hu⟩ := H.2.2.1 (by decide)
  have he' : e = ⟨5, "5", 0⟩ := by
    have : some (⟨5, "5", 0⟩ : RevisionEntry Nat) = some e := by
      exact (by decide :
        ([⟨5, "5", 0⟩, ⟨6, "6", 1⟩] : List (RevisionEntry Nat)).get? 0 =
          some ⟨5, "5", 0⟩).symm.trans he
    injection this with h
    exact h.symm
  refine ⟨?_, H.2.1 (by decide)⟩
  rw [hu, he']
  rfl

/-- The entry `capturePush` leaves at the new `index` is the freshly
created one. -/
theorem capturePush_active {σ : Type} (h : σ → String)
    (current : RevisionState σ) (snap : σ) (now : Nat) :
    (capturePush h current snap now).entries.get?
      ((capturePush h current snap now).index) =
      some (createEntry h snap now) := by
  simp only [capturePush, MAX_REVISIONS_PER_REQUEST]
  by_cases hex :
      30 < (current.entries.take (current.index + 1) ++ [createEntry h snap now]).length
  · simp only [if_pos hex]
    rw [List.get?_eq_getElem?, ← List.getLast?_eq_getElem?]
    have hle :
        (current.entries.take (current.index + 1) ++ [createEntry h snap now]).length - 30 ≤
          (current.entries.take (current.index + 1)).length := by
      simp only [List.length_append, List.length_singleton]
      omega
    rw [List.drop_append_of_le_length hle, List.getLast?_concat]
  · simp only [if_neg hex]
    rw [List.get?_eq_getElem?, ← List.getLast?_eq_getElem?, List.getLast?_concat]

/-- C7: capturing a snapshot whose hash matches the active entry's is a
no-op, and in particular capturing the same snapshot twice in a row leaves
everything unchanged on the second call. -/
theorem captureSnapshot_idempotent {σ : Type} (h : σ → String) :
    (∀ (st : RevisionState σ) (e : RevisionEntry σ) (snap : σ) (now : Nat),
      st.entries.get? st.index = some e → e.hash = h snap →
      captureSnapshot h (some st) snap now = st) ∧
    (∀ (cur : Option (RevisionState σ)) (snap : σ) (t1 t2 : Nat),
      captureSnapshot h (some (captureSnapshot h cur snap t1)) snap t2 =
        captureSnapshot h cur snap t1) := by
  have noop : ∀ (st : RevisionState σ) (e : RevisionEntry σ) (snap : σ) (now : Nat),
      st.entries.get? st.index = some e → e.hash = h snap →
      captureSnapshot h (some st) snap now = st := by
    intro st e snap now hget hh
    simp only [captureSnapshot, hget]
    rw [if_pos hh]
  refine ⟨noop, ?_⟩
  intro cur snap t1 t2
  rcases cur with _ | current
  · exact noop _ (createEntry h snap t1) snap t2 rfl rfl
  · rcases hget : current.entries.get? current.index with _ | active
    · have hfst : captureSnapshot h (some current) snap t1 = capturePush h current snap t1 := by
        simp only [captureSnapshot, hget]
      rw [hfst]
      exact noop _ (createEntry h snap t1) snap t2 (capturePush_active h current snap t1) rfl
    · by_cases hh : active.hash = h snap
      · have hfst : captureSnapshot h (some current) snap t1 = current := by
          simp only [captureSnapshot, hget]
          rw [if_pos hh]
        rw [hfst]
        exact noop _ active snap t2 hget hh
      · have hfst : captureSnapshot h (some current) snap t1 = capturePush h current snap t1 := by
          simp only [captureSnapshot, hget]
          rw [if_neg hh]
        rw [hfst]
        exact noop _ (createEntry h snap t1) snap t2 (capturePush_active h current snap t1) rfl

theorem schedInv_init {C : Type} (compl : Nat → C) (n limit : Nat) :
    SchedInv compl n limit (schedInit C n limit) := by
  refine ⟨by simp [schedInit], by simp [schedInit], ?_, ?_, ?_, ?_, ?_, ?_,
    by simp [schedInit], ?_⟩
  · intro w i hw
    simp only [schedInit, List.getElem?_replicate] at hw
    by_cases h : w < limit <;> simp [h] at hw
  · intro w i hw
    simp only [schedInit, List.getElem?_replicate] at hw
    by_cases h : w < limit <;> simp [h] at hw
  · intro w wb i hne hw hwb
    simp only [schedInit, List.getElem?_replicate] at hw
    by_cases h : w < limit <;> simp [h] at hw
  · intro i hi hlt
    exact absurd hlt (Nat.not_lt_zero i)
  · intro i hi _
    simp [schedInit, List.getElem?_replicate_of_lt hi]
  · intro w hw
    simp only [schedInit, List.getElem?_replicate] at hw
    by_cases h : w < limit <;> simp [h] at hw
  · intro i
    simp only [schedInit, List.not_mem_nil, false_iff, not_and]
    intro hi hres
    rw [List.getElem?_replicate_of_lt hi] at hres
    exact absurd hres (by simp)

theorem schedInv_step {C : Type} (compl : Nat → C) (n limit : Nat)
    (s : SchedState C) (w : Nat) (hs : SchedInv compl n limit s) :
    SchedInv compl n limit (schedStep compl n s w) := by
  obtain ⟨hwl, hrl, hbb, hbu, hbd, hcl, hun, hfc, hnd, hfm⟩ := hs
  rcases hw : s.workers[w]? with _ | ws
  · simpa only [schedStep, hw] using
      (⟨hwl, hrl, hbb, hbu, hbd, hcl, hun, hfc, hnd, hfm⟩ :
        SchedInv compl n limit s)
  · have hwlt : w < s.workers.length := (List.getElem?_eq_some_iff.mp hw).1
    cases ws with
    | finished =>
      simpa only [schedStep, hw] using
        (⟨hwl, hrl, hbb, hbu, hbd, hcl, hun, hfc, hnd, hfm⟩ :
          SchedInv compl n limit s)
    | idle =>
      by_cases hc : n ≤ s.cursor
      · have hstep : schedStep compl n s w =
            { s with cursor := s.cursor + 1,
                     workers := s.workers.set w WorkerStatus.finished } := by
          simp only [schedStep, hw, if_pos hc]
        rw [hstep]
        refine ⟨by simpa using hwl, hrl, ?_, ?_, ?_, ?_, ?_, ?_, hnd, hfm⟩ <;>
          dsimp only
        · intro wb i hwb
          by_cases hbw : w = wb
          · subst hbw
            rw [List.getElem?_set_self hwlt] at hwb
            exact absurd hwb (by simp)
          · rw [List.getElem?_set_ne hbw] at hwb
            obtain ⟨h1, h2⟩ := hbb wb i hwb
            exact ⟨h1, Nat.lt_succ_of_lt h2⟩
        · intro wb i hwb
          by_cases hbw : w = wb
          · subst hbw
            rw [List.getElem?_set_self hwlt] at hwb
            exact absurd hwb (by simp)
          · rw [List.getElem?_set_ne hbw] at hwb
            exact hbu wb i hwb
        · intro w1 w2 i hne h1 h2
          by_cases he1 : w = w1
          · subst he1
            rw [List.getElem?_set_self hwlt] at h1
            exact absurd h1 (by simp)
          · by_cases he2 : w = w2
            · subst he2
              rw [List.getElem?_set_self hwlt] at h2
              exact absurd h2 (by simp)
            · rw [List.getElem?_set_ne he1] at h1
              rw [List.getElem?_set_ne he2] at h2
              exact hbd w1 w2 i hne h1 h2
        · intro i hi hlt
          have hlt' : i < s.cursor := by omega
          rcases hcl i hi hlt' with ⟨wb, hwb⟩ | hres
          · have hbw : w ≠ wb := by
              intro he
              rw [← he, hw] at hwb
              exact absurd hwb (by simp)
            exact Or.inl ⟨wb, by rw [List.getElem?_set_ne hbw]; exact hwb⟩
          · exact Or.inr hres
        · intro i hi hge
          have : False := by omega
          exact this.elim
        · intro wb hwb
          by_cases hbw : w = wb
          · omega
          · rw [List.getElem?_set_ne hbw] at hwb
            exact Nat.le_succ_of_le (hfc wb hwb)
      · have hstep : schedStep compl n s w =
            { s with cursor := s.cursor + 1,
                     workers := s.workers.set w (WorkerStatus.busy s.cursor) } := by
          simp only [schedStep, hw, if_neg hc]
        have hcn : s.cursor < n := Nat.lt_of_not_le hc
        rw [hstep]
        refine ⟨by simpa using hwl, hrl, ?_, ?_, ?_, ?_, ?_, ?_, hnd, hfm⟩ <;>
          dsimp only
        · intro wb i hwb
          by_cases hbw : w = wb
          · subst hbw
            rw [List.getElem?_set_self hwlt] at hwb
            obtain rfl : s.cursor = i := by
              injection hwb with h
              injection h
            exact ⟨hcn, Nat.lt_succ_self _⟩
          · rw [List.getElem?_set_ne hbw] at hwb
            obtain ⟨h1, h2⟩ := hbb wb i hwb
            exact ⟨h1, Nat.lt_succ_of_lt h2⟩
        · intro wb i hwb
          by_cases hbw : w = wb
          · subst hbw
            rw [List.getElem?_set_self hwlt] at hwb
            obtain rfl : s.cursor = i := by
              injection hwb with h
              injection h
            exact hun s.cursor hcn (Nat.le_refl _)
          · rw [List.getElem?_set_ne hbw] at hwb
            exact hbu wb i hwb
        · intro w1 w2 i hne h1 h2
          by_cases he1 : w = w1
          · subst he1
            rw [List.getElem?_set_self hwlt] at h1
            obtain rfl : s.cursor = i := by
              injection h1 with h
              injection h
            have hne2 : w ≠ w2 := hne
            rw [List.getElem?_set_ne hne2] at h2
            exact absurd (hbb w2 s.cursor h2).2 (Nat.lt_irrefl _)
          · by_cases he2 : w = w2
            · subst he2
              rw [List.getElem?_set_self hwlt] at h2
              obtain rfl : s.cursor = i := by
                injection h2 with h
                injection h
              rw [List.getElem?_set_ne he1] at h1
              exact absurd (hbb w1 s.cursor h1).2 (Nat.lt_irrefl _)
            · rw [List.getElem?_set_ne he1] at h1
              rw [List.getElem?_set_ne he2] at h2
              exact hbd w1 w2 i hne h1 h2
        · intro i hi hlt
          by_cases hic : i = s.cursor
          · subst hic
            exact Or.inl ⟨w, by rw [List.getElem?_set_self hwlt]⟩
          · have hlt' : i < s.cursor := by omega
            rcases hcl i hi hlt' with ⟨wb, hwb⟩ | hres
            · have hbw : w ≠ wb := by
                intro he
                rw [← he, hw] at hwb
                exact absurd hwb (by simp)
              exact Or.inl ⟨wb, by rw [List.getElem?_set_ne hbw]; exact hwb⟩
            · exact Or.inr hres
        · intro i hi hge
          exact hun i hi (by omega)
        · intro wb hwb
          by_cases hbw : w = wb
          · subst hbw
            rw [List.getElem?_set_self hwlt] at hwb
            exact absurd hwb (by simp)
          · rw [List.getElem?_set_ne hbw] at hwb
            exact Nat.le_succ_of_le (hfc wb hwb)
    | busy i =>
      have hstep : schedStep compl n s w =
          { s with workers := s.workers.set w WorkerStatus.idle,
                   results := s.results.set i (some (compl i)),
                   finishOrder := s.finishOrder ++ [i] } := by
        simp only [schedStep, hw]
      have hin : i < n ∧ i < s.cursor := hbb w i hw
      have hresi : s.results[i]? = some none := hbu w i hw
      have hilt : i < s.results.length := (List.getElem?_eq_some_iff.mp hresi).1
      have hinot : i ∉ s.finishOrder := by
        intro hmem
        have := (hfm i).mp hmem
        rw [hresi] at this
        exact absurd this.2 (by simp)
      rw [hstep]
      refine ⟨by simpa using hwl, by simpa using hrl, ?_, ?_, ?_, ?_, ?_, ?_, ?_, ?_⟩ <;>
        dsimp only
      · intro wb j hwb
        by_cases hbw : w = wb
        · subst hbw
          rw [List.getElem?_set_self hwlt] at hwb
          exact absurd hwb (by simp)
        · rw [List.getElem?_set_ne hbw] at hwb
          exact hbb wb j hwb
      · intro wb j hwb
        by_cases hbw : w = wb
        · subst hbw
          rw [List.getElem?_set_self hwlt] at hwb
          exact absurd hwb (by simp)
        · rw [List.getElem?_set_ne hbw] at hwb
          have hji : i ≠ j := by
            intro he
            exact hbd w wb i hbw hw (he.symm ▸ hwb)
          rw [List.getElem?_set_ne hji]
          exact hbu wb j hwb
      · intro w1 w2 j hne h1 h2
        by_cases he1 : w = w1
        · subst he1
          rw [List.getElem?_set_self hwlt] at h1
          exact absurd h1 (by simp)
        · by_cases he2 : w = w2
          · subst he2
            rw [List.getElem?_set_self hwlt] at h2
            exact absurd h2 (by simp)
          · rw [List.getElem?_set_ne he1] at h1
            rw [List.getElem?_set_ne he2] at h2
            exact hbd w1 w2 j hne h1 h2
      · intro j hj hlt
        by_cases hji : j = i
        · subst hji
          exact Or.inr (by rw [List.getElem?_set_self hilt])
        · rcases hcl j hj hlt with ⟨wb, hwb⟩ | hres
          · have hbw : w ≠ wb := by
              intro he
              rw [← he, hw] at hwb
              obtain rfl : i = j := by
                injection hwb with h
                injection h
              exact hji rfl
            refine Or.inl ⟨wb, ?_⟩
            rw [List.getElem?_set_ne hbw]
            exact hwb
          · refine Or.inr ?_
            rw [List.getElem?_set_ne (fun he => hji (he.symm))]
            exact hres
      · intro j hj hge
        have hji : i ≠ j := by omega
        rw [List.getElem?_set_ne hji]
        exact hun j hj hge
      · intro wb hwb
        by_cases hbw : w = wb
        · subst hbw
          rw [List.getElem?_set_self hwlt] at hwb
          exact absurd hwb (by simp)
        · rw [List.getElem?_set_ne hbw] at hwb
          exact hfc wb hwb
      · exact List.Nodup.append hnd (List.nodup_singleton i)
          (List.disjoint_singleton.mpr hinot)
      · intro j
        rw [List.mem_append, List.mem_singleton]
        constructor
        · rintro (hj | rfl)
          · obtain ⟨hjn, hjres⟩ := (hfm j).mp hj
            have hji : i ≠ j := by
              intro he
              rw [← he, hresi] at hjres
              exact absurd hjres (by simp)
            exact ⟨hjn, by rw [List.getElem?_set_ne hji]; exact hjres⟩
          · exact ⟨hin.1, by rw [List.getElem?_set_self hilt]⟩
        · rintro ⟨hjn, hjres⟩
          by_cases hji : j = i
          · exact Or.inr hji
          · rw [List.getElem?_set_ne (fun he => hji he.symm)] at hjres
            exact Or.inl ((hfm j).mpr ⟨hjn, hjres⟩)

theorem schedInv_run {C : Type} (compl : Nat → C) (n limit : Nat)
    (choices : List Nat) (s : SchedState C) (hs : SchedInv compl n limit s) :
    SchedInv compl n limit (choices.foldl (schedStep compl n) s) := by
  induction choices generalizing s with
  | nil => exact hs
  | cons c cs ih => exact ih _ (schedInv_step compl n limit s c hs)

/-- In a terminal state of a pool with at least one worker, every index
holds its own completion and `finishOrder` is a permutation of the index
range. -/
theorem schedInv_terminal {C : Type} (compl : Nat → C) (n limit : Nat)
    (s : SchedState C) (hinv : SchedInv compl n limit s) (hlim : 0 < limit)
    (hterm : isTerminal s = true) :
    s.results.length = n ∧
    (∀ i : Nat, i < n → s.results[i]? = some (some (compl i))) ∧
    List.Perm s.finishOrder (List.range n) := by
  have hall : ∀ x ∈ s.workers, x = WorkerStatus.finished := by
    intro x hx
    have := List.all_eq_true.mp hterm x hx
    exact eq_of_beq this
  have hw0 : s.workers[0]? = some WorkerStatus.finished := by
    have h0 : 0 < s.workers.length := by
      rw [hinv.workersLen]
      exact hlim
    rw [List.getElem?_eq_getElem h0]
    exact congrArg some (hall _ (List.getElem_mem h0))
  have hcur : n ≤ s.cursor := hinv.finishedCursor 0 hw0
  have hcomplete : ∀ i : Nat, i < n → s.results[i]? = some (some (compl i)) := by
    intro i hi
    rcases hinv.claimed i hi (Nat.lt_of_lt_of_le hi hcur) with ⟨wb, hwb⟩ | hres
    · have := hall _ (List.getElem?_mem hwb)
      exact absurd this (by simp)
    · exact hres
  refine ⟨hinv.resultsLen, hcomplete, ?_⟩
  have hmem : ∀ i : Nat, i ∈ s.finishOrder ↔ i ∈ List.range n := by
    intro i
    rw [List.mem_range]
    constructor
    · intro hif
      exact ((hinv.finishMem i).mp hif).1
    · intro hi
      exact (hinv.finishMem i).mpr ⟨hi, hcomplete i hi⟩
  exact List.Subperm.antisymm
    (List.subperm_of_subset hinv.finishNodup (fun a ha => (hmem a).mp ha))
    (List.subperm_of_subset (List.nodup_range n) (fun a ha => (hmem a).mpr ha))

/-- A completed run of the scheduler, whatever the interleaving: the result
slots hold exactly the per-index completions and the completion order is a
permutation of the indices. -/
theorem schedExec_terminal_complete {C : Type} (compl : Nat → C)
    (n conc : Nat) (cs : List Nat)
    (hterm : isTerminal (schedExec compl n (clampLimit conc n) cs) = true) :
    (schedExec compl n (clampLimit conc n) cs).results.length = n ∧
    (∀ i : Nat, i < n →
      (schedExec compl n (clampLimit conc n) cs).results[i]? =
        some (some (compl i))) ∧
    List.Perm (schedExec compl n (clampLimit conc n) cs).finishOrder
      (List.range n) := by
  have hinv : SchedInv compl n (clampLimit conc n)
      (schedExec compl n (clampLimit conc n) cs) :=
    schedInv_run compl n (clampLimit conc n) cs _
      (schedInv_init compl n (clampLimit conc n))
  exact schedInv_terminal compl n (clampLimit conc n) _ hinv
    (Nat.le_max_left 1 _) hterm

/-- C3: for every item list, worker and concurrency value, a completed
`runWithConcurrency` run — under any interleaving of its workers — yields a
settlement array of length exactly N whose entry at index i is the
settlement of item i, in input order regardless of completion order. -/
theorem runWithConcurrency_settles_in_input_order {R : Type}
    (outcome : Nat → Settlement R) (n conc : Nat) (cs : List Nat)
    (hterm : isTerminal (schedExec outcome n (clampLimit conc n) cs) = true) :
    (schedExec outcome n (clampLimit conc n) cs).results.length = n ∧
    ∀ i : Nat, i < n →
      (schedExec outcome n (clampLimit conc n) cs).results[i]? =
        some (some (outcome i)) :=
  ⟨(schedExec_terminal_complete outcome n conc cs hterm).1,
   (schedExec_terminal_complete outcome n conc cs hterm).2.1⟩

/-- C3 witness: two items under concurrency 2, with the schedule making
item 1 complete before item 0; the settlements still land in input order. -/
theorem runWithConcurrency_settles_in_input_order_witness :
    (schedExec (fun i => Settlement.fulfilled (10 + i)) 2 (clampLimit 2 2)
      [0, 1, 1, 0, 0, 1]).results.length = 2 ∧
    (schedExec (fun i => Settlement.fulfilled (10 + i)) 2 (clampLimit 2 2)
      [0, 1, 1, 0, 0, 1]).results[0]? =
      some (some (Settlement.fulfilled 10)) ∧
    (schedExec (fun i => Settlement.fulfilled (10 + i)) 2 (clampLimit 2 2)
      [0, 1, 1, 0, 0, 1]).finishOrder = [1, 0] := by
  have H := runWithConcurrency_settles_in_input_order
    (fun i => Settlement.fulfilled (10 + i)) 2 2 [0, 1, 1, 0, 0, 1] (by decide)
  exact ⟨H.1, H.2 0 (by decide), by decide⟩

/-- C4: a rejected worker settlement is recorded at its own index while
every other item still runs to completion and settles with its own
independent outcome; no sibling worker is aborted. -/
theorem runWithConcurrency_failure_isolated {R : Type}
    (outcome : Nat → Settlement R) (n conc j : Nat) (r : String)
    (cs : List Nat)
    (hterm : isTerminal (schedExec outcome n (clampLimit conc n) cs) = true)
    (hj : j < n) (hrej : outcome j = Settlement.rejected r) :
    (schedExec outcome n (clampLimit conc n) cs).results[j]? =
      some (some (Settlement.rejected r)) ∧
    ∀ i : Nat, i < n → i ≠ j →
      (schedExec outcome n (clampLimit conc n) cs).results[i]? =
        some (some (outcome i)) := by
  have H := schedExec_terminal_complete outcome n conc cs hterm
  refine ⟨?_, fun i hi _ => H.2.1 i hi⟩
  rw [H.2.1 j hj, hrej]

/-- C4 witness: item 2 of 5 rejects; the remaining four indices settle
fulfilled with their own values. -/
theorem runWithConcurrency_failure_isolated_witness :
    (schedExec
      (fun i => if i = 2 then Settlement.rejected "boom"
                else Settlement.fulfilled i)
      5 (clampLimit 1 5) [0, 0, 0, 0, 0, 0, 0, 0, 0, 0, 0]).results[2]? =
      some (some (Settlement.rejected "boom")) ∧
    (schedExec
      (fun i => if i = 2 then Settlement.rejected "boom"
                else Settlement.fulfilled i)
      5 (clampLimit 1 5) [0, 0, 0, 0, 0, 0, 0, 0, 0, 0, 0]).results[3]? =
      some (some (Settlement.fulfilled 3)) := by
  have H := runWithConcurrency_failure_isolated
    (fun i => if i = 2 then Settlement.rejected "boom"
              else Settlement.fulfilled i)
    5 1 2 "boom" [0, 0, 0, 0, 0, 0, 0, 0, 0, 0, 0]
    (by decide) (by decide) (by decide)
  exact ⟨H.1, (H.2 3 (by decide) (by decide)).trans (by decide)⟩

/-- A worker invocation pushes a report row exactly when it fulfills;
when it rejects it pushes nothing. -/
theorem runItem_push_dichotomy (b : BulkItemBehavior) :
    ((runItem b).push.isSome = true ∧
      settlementRejected (runItem b).settled = false) ∨
    ((runItem b).push = none ∧
      settlementRejected (runItem b).settled = true) := by
  rcases h1 : hookRun b.startHook with _ | m1
  · rcases h2 : b.execute with r | m2
    · rcases h3 : hookRun b.doneHook with _ | m3
      · exact Or.inl (by simp [runItem, h1, h2, h3, settlementRejected])
      · exact Or.inr (by simp [runItem, h1, h2, h3, settlementRejected])
    · exact Or.inr (by simp [runItem, h1, h2, settlementRejected])
  · exact Or.inr (by simp [runItem, h1, settlementRejected])

/-- Every claimed index contributes exactly one report row: a pushed one
when it fulfilled, a `.then`-phase one when it rejected. -/
theorem bulk_rows_count (items : List BulkItemBehavior) (l : List Nat) :
    (l.filterMap (fun i => (bulkCompl items i).push)).length +
      l.countP (fun i => settlementRejected (bulkCompl items i).settled) =
      l.length := by
  induction l with
  | nil => simp
  | cons i tl ih =>
    rw [List.filterMap_cons, List.countP_cons]
    rcases runItem_push_dichotomy (items.getD i defaultBulkItem) with
      ⟨h1, h2⟩ | ⟨h1, h2⟩
    · obtain ⟨row, hrow⟩ := Option.isSome_iff_exists.mp h1
      have hrow' : (bulkCompl items i).push = some row := hrow
      have h2' : settlementRejected (bulkCompl items i).settled = false := h2
      simp only [hrow', h2']
      simp only [List.length_cons, Bool.false_eq_true, if_false]
      omega
    · have hrow' : (bulkCompl items i).push = none := h1
      have h2' : settlementRejected (bulkCompl items i).settled = true := h2
      simp only [hrow', h2']
      simp only [List.length_cons, if_true]
      omega

/-- The `.then` walk pushes one failed row per rejected settlement on the
runs it completes. -/
theorem thenPhase_ok_length (items : List BulkItemBehavior) :
    ∀ (pairs : List (Nat × Settlement RequestResult))
      (rows : List BulkRunReportItem) (evs : List HookEvent),
      thenPhase items pairs = RunExcept.ok (rows, evs) →
      rows.length = pairs.countP (fun p => settlementRejected p.2) := by
  intro pairs
  induction pairs with
  | nil =>
    intro rows evs h
    simp only [thenPhase, RunExcept.ok.injEq, Prod.mk.injEq] at h
    rw [← h.1]
    simp
  | cons hd tl ih =>
    intro rows evs h
    rcases hd with ⟨idx, st⟩
    rcases st with r | reason
    · rw [List.countP_cons]
      show rows.length =
        List.countP (fun p => settlementRejected p.2) tl + 0
      rw [Nat.add_zero]
      exact ih rows evs h
    · rw [List.countP_cons]
      show rows.length =
        List.countP (fun p => settlementRejected p.2) tl + 1
      simp only [thenPhase] at h
      rcases hh : hookRun (items.getD idx defaultBulkItem).errorHook with _ | m
      · rw [hh] at h
        rcases hrec : thenPhase items tl with p | e
        · rcases p with ⟨rw2, ev2⟩
          rw [hrec] at h
          simp only [RunExcept.ok.injEq, Prod.mk.injEq] at h
          rw [← h.1]
          simp only [List.length_cons]
          rw [ih rw2 ev2 hrec]
        · rw [hrec] at h
          exact absurd h (by simp)
      · rw [hh] at h
        exact absurd h (by simp)

/-- In a completed bulk run, the settlement the `.then` walk reads at `i`
is the one item `i`\'s worker produced. -/
theorem settledAt_of_terminal (items : List BulkItemBehavior) (conc : Nat)
    (cs : List Nat)
    (hterm : isTerminal (schedExec (bulkCompl items) items.length
      (clampLimit conc items.length) cs) = true) :
    ∀ i : Nat, i < items.length →
      settledAt (schedExec (bulkCompl items) items.length
        (clampLimit conc items.length) cs) i = (bulkCompl items i).settled := by
  intro i hi
  have H := (schedExec_terminal_complete (bulkCompl items) items.length conc cs
    hterm).2.1 i hi
  unfold settledAt
  rw [List.getD_eq_getElem?_getD, H]
  rfl

/-- C10: whenever `executeBulkRun` returns a report — under any schedule
and any behaviour of the execute closures and hooks — it contains exactly
one report item per input item: `total = items.length`, one row per item,
and `passed + failed = total`. -/
theorem executeBulkRun_report_counts (items : List BulkItemBehavior)
    (conc : Nat) (cs : List Nat) (rep : BulkRunReport)
    (h : executeBulkRunModel items conc cs = some (RunExcept.ok rep)) :
    rep.total = items.length ∧ rep.items.length = items.length ∧
    rep.passed + rep.failed = rep.total := by
  by_cases hterm : isTerminal (schedExec (bulkCompl items) items.length
      (clampLimit conc items.length) cs) = true
  · rcases hphase : thenPhase items ((List.range items.length).map
        (fun i => (i, settledAt (schedExec (bulkCompl items) items.length
          (clampLimit conc items.length) cs) i))) with p | e
    · rcases p with ⟨rows2, evs2⟩
      simp only [executeBulkRunModel, executeBulkRunFull, hterm, if_true,
        hphase, Option.map, Option.some.injEq, RunExcept.ok.injEq] at h
      subst h
      have hperm : List.Perm (schedExec (bulkCompl items) items.length
          (clampLimit conc items.length) cs).finishOrder
          (List.range items.length) :=
        (schedExec_terminal_complete (bulkCompl items) items.length conc cs
          hterm).2.2
      have hlen1 : ((schedExec (bulkCompl items) items.length
          (clampLimit conc items.length) cs).finishOrder.filterMap
          (fun i => (bulkCompl items i).push)).length =
          ((List.range items.length).filterMap
            (fun i => (bulkCompl items i).push)).length :=
        (hperm.filterMap (fun i => (bulkCompl items i).push)).length_eq
      have hlen2 : rows2.length = (List.range items.length).countP
          (fun i => settlementRejected (bulkCompl items i).settled) := by
        have hth := thenPhase_ok_length items _ rows2 evs2 hphase
        rw [hth, List.countP_map]
        refine List.countP_congr ?_
        intro i hi
        rw [List.mem_range] at hi
        simp only [Function.comp]
        rw [settledAt_of_terminal items conc cs hterm i hi]
      have hrows : ((schedExec (bulkCompl items) items.length
          (clampLimit conc items.length) cs).finishOrder.filterMap
          (fun i => (bulkCompl items i).push) ++ rows2).length =
          items.length := by
        rw [List.length_append, hlen1, hlen2]
        have hcount := bulk_rows_count items (List.range items.length)
        simpa [List.length_range] using hcount
      have hple := List.length_filter_le
        (fun i => i.status == BulkRunStatus.passed)
        ((schedExec (bulkCompl items) items.length
          (clampLimit conc items.length) cs).finishOrder.filterMap
          (fun i => (bulkCompl items i).push) ++ rows2)
      refine ⟨rfl, ?_, ?_⟩
      · dsimp only
        exact hrows
      · dsimp only
        omega
    · simp only [executeBulkRunModel, executeBulkRunFull, hterm, if_true,
        hphase, Option.map] at h
      exact absurd h (by simp)
  · rw [Bool.not_eq_true] at hterm
    simp only [executeBulkRunModel, executeBulkRunFull, hterm,
      Bool.false_eq_true, if_false, Option.map] at h
    exact absurd h (by simp)

/-- C10 witness: three items — one passing, one throwing, one failing by
status — under concurrency 2 still give a three-row report with
`passed + failed = total = 3`. -/
theorem executeBulkRun_report_counts_witness :
    ∃ rep : BulkRunReport,
      executeBulkRunModel
        [⟨"a", none, ExecOutcome.returns ⟨201, 1, none⟩, none, none⟩,
         ⟨"b", none, ExecOutcome.throws "ex", none, none⟩,
         ⟨"c", none, ExecOutcome.returns ⟨404, 1, none⟩, none, none⟩] 2
        [0, 1, 0, 1, 0, 1, 0, 1, 0, 1, 0, 1] = some (RunExcept.ok rep) ∧
      rep.total = 3 ∧ rep.items.length = 3 ∧
      rep.passed + rep.failed = rep.total := by
  have hrep : executeBulkRunModel
      [⟨"a", none, ExecOutcome.returns ⟨201, 1, none⟩, none, none⟩,
       ⟨"b", none, ExecOutcome.throws "ex", none, none⟩,
       ⟨"c", none, ExecOutcome.returns ⟨404, 1, none⟩, none, none⟩] 2
      [0, 1, 0, 1, 0, 1, 0, 1, 0, 1, 0, 1] = some (RunExcept.ok
        { total := 3, passed := 1, failed := 2,
          items := [⟨"a", BulkRunStatus.passed, 201, 1, none⟩,
                    ⟨"c", BulkRunStatus.failed, 404, 1, none⟩,
                    ⟨"b", BulkRunStatus.failed, 0, 0, some "ex"⟩] }) := by
    decide
  have H := executeBulkRun_report_counts _ 2 _ _ hrep
  exact ⟨_, hrep, H.1.trans (by decide), H.2.1.trans (by decide), H.2.2⟩

/-- C1 counterexample: a fulfilled result with `status_code = 0` and no
error field is reported `passed` by `executeBulkRun` — the worker-path
classification is `status_code >= 400 || Boolean(error)` and has no
`status_code == 0` clause — where the claim demands `failed`. -/
theorem executeBulkRun_statusCode_zero_passed :
    executeBulkRunModel
      [⟨"r1", none, ExecOutcome.returns ⟨0, 5, none⟩, none, none⟩] 1
      [0, 0, 0] =
      some (RunExcept.ok
        { total := 1, passed := 1, failed := 0,
          items := [⟨"r1", BulkRunStatus.passed, 0, 5, none⟩] }) ∧
    BulkRunStatus.passed ≠ BulkRunStatus.failed :=
  ⟨by decide, by decide⟩

/-- C1 (amended): an item whose execute call completes with a result (and
whose hooks succeed) is classified failed iff `status_code ≥ 400` or a
non-empty `error` string is present — `status_code = 0` alone does not
fail it — while an item whose worker rejects gets a failed `.then`-phase
row with `statusCode = 0`. -/
theorem executeBulkRun_failed_classification (b : BulkItemBehavior)
    (r : RequestResult)
    (h1 : hookRun b.startHook = HookOutcome.ok)
    (h2 : b.execute = ExecOutcome.returns r)
    (h3 : hookRun b.doneHook = HookOutcome.ok) :
    (runItem b).push = some
      { requestId := b.requestId,
        status := if classifyFailed r then BulkRunStatus.failed
                  else BulkRunStatus.passed,
        statusCode := r.status_code,
        durationMs := r.duration_ms,
        error := r.error } ∧
    (classifyFailed r = true ↔
      (400 ≤ r.status_code ∨ ∃ s, r.error = some s ∧ s ≠ "")) ∧
    (∀ (items : List BulkItemBehavior) (idx : Nat) (reason : String),
      (errorRow items idx reason).status = BulkRunStatus.failed ∧
      (errorRow items idx reason).statusCode = 0) := by
  refine ⟨by simp [runItem, h1, h2, h3], ?_,
    fun items idx reason => ⟨rfl, rfl⟩⟩
  unfold classifyFailed errTruthy
  rcases r.error with _ | s
  · simp
  · simp

/-- C1 witness: status 500 is classified failed; the push carries the
result's own code and duration. -/
theorem executeBulkRun_failed_classification_witness :
    (runItem ⟨"a", none, ExecOutcome.returns ⟨500, 3, none⟩, none, none⟩).push =
      some ⟨"a", BulkRunStatus.failed, 500, 3, none⟩ ∧
    classifyFailed ⟨500, 3, none⟩ = true := by
  have H := executeBulkRun_failed_classification
    ⟨"a", none, ExecOutcome.returns ⟨500, 3, none⟩, none, none⟩
    ⟨500, 3, none⟩ rfl rfl rfl
  exact ⟨H.1.trans (by decide), H.2.1.mpr (Or.inl (by decide))⟩

/-- C2 counterexample: when `onItemDone` itself throws, the worker promise
rejects after `onItemDone` was invoked, so the `.then` walk also invokes
`onItemError` — both `done` and `error` fire for the same item, where the
claim says never both. -/
theorem bulkRun_done_and_error_both_fire :
    bulkRunEvents
      [⟨"r1", some HookOutcome.ok, ExecOutcome.returns ⟨200, 5, none⟩,
        some (HookOutcome.fails "boom"), some HookOutcome.ok⟩] 1 [0, 0, 0] =
      some (RunExcept.ok
        [HookEvent.start "r1", HookEvent.done "r1", HookEvent.error "r1"]) ∧
    HookEvent.done "r1" ∈
      [HookEvent.start "r1", HookEvent.done "r1", HookEvent.error "r1"] ∧
    HookEvent.error "r1" ∈
      [HookEvent.start "r1", HookEvent.done "r1", HookEvent.error "r1"] :=
  ⟨by decide, by decide, by decide⟩

theorem hookEvent_sublist (h : Option HookOutcome) (x : HookEvent) :
    (hookEvent h x).Sublist [x] := by
  cases h
  · exact List.nil_sublist _
  · exact List.Sublist.refl _

theorem hookEvent_mem {h : Option HookOutcome} {x y : HookEvent}
    (hm : y ∈ hookEvent h x) : y = x := by
  cases h
  · simp [hookEvent] at hm
  · simpa [hookEvent] using hm

theorem hookRun_fails {h : Option HookOutcome} {m : String}
    (he : hookRun h = HookOutcome.fails m) :
    h = some (HookOutcome.fails m) := by
  cases h
  · simp [hookRun] at he
  · exact congrArg some (by simpa [hookRun] using he)

/-- C2 (amended): for each item the hooks fire in the order
`start`, `done`, `error`, each at most once (`onItemStart` and
`onItemDone` are awaited; `onItemError` is fired un-awaited in the `.then`
walk); both `done` and `error` fire for the same item exactly when the
`onItemDone` invocation itself throws. -/
theorem itemTrace_hook_order (b : BulkItemBehavior) :
    (itemTrace b).Sublist
      [HookEvent.start b.requestId, HookEvent.done b.requestId,
       HookEvent.error b.requestId] ∧
    (HookEvent.done b.requestId ∈ itemTrace b →
      HookEvent.error b.requestId ∈ itemTrace b →
      ∃ msg, b.doneHook = some (HookOutcome.fails msg)) := by
  have hA : (runItem b).events.Sublist
      [HookEvent.start b.requestId, HookEvent.done b.requestId] := by
    rcases h1 : hookRun b.startHook with _ | m1
    · rcases h2 : b.execute with r | m2
      · rcases h3 : hookRun b.doneHook with _ | m3
        · simp only [runItem, h1, h2, h3]
          exact List.Sublist.append (hookEvent_sublist _ _)
            (hookEvent_sublist _ _)
        · simp only [runItem, h1, h2, h3]
          exact List.Sublist.append (hookEvent_sublist _ _)
            (hookEvent_sublist _ _)
      · simp only [runItem, h1, h2]
        exact (hookEvent_sublist _ _).trans
          (List.Sublist.cons₂ _ (List.nil_sublist _))
    · simp only [runItem, h1]
      exact (hookEvent_sublist _ _).trans
        (List.Sublist.cons₂ _ (List.nil_sublist _))
  constructor
  · rcases hset : (runItem b).settled with r | msg
    · simp only [itemTrace, hset]
      exact List.Sublist.append hA (List.nil_sublist _)
    · simp only [itemTrace, hset]
      exact List.Sublist.append hA (hookEvent_sublist _ _)
  · intro hd he
    rcases h1 : hookRun b.startHook with _ | m1
    · rcases h2 : b.execute with r | m2
      · rcases h3 : hookRun b.doneHook with _ | m3
        · exfalso
          simp only [itemTrace, runItem, h1, h2, h3] at he
          rcases List.mem_append.mp he with hm | hm
          · rcases List.mem_append.mp hm with hm2 | hm2
            · exact absurd (hookEvent_mem hm2) (by simp)
            · exact absurd (hookEvent_mem hm2) (by simp)
          · simp at hm
        · exact ⟨m3, hookRun_fails h3⟩
      · exfalso
        simp only [itemTrace, runItem, h1, h2] at hd
        rcases List.mem_append.mp hd with hm | hm
        · exact absurd (hookEvent_mem hm) (by simp)
        · exact absurd (hookEvent_mem hm) (by simp)
    · exfalso
      simp only [itemTrace, runItem, h1] at hd
      rcases List.mem_append.mp hd with hm | hm
      · exact absurd (hookEvent_mem hm) (by simp)
      · exact absurd (hookEvent_mem hm) (by simp)

/-- C2 witness: a run whose `onItemDone` throws — the trace is the ordered
`[start, done, error]` (a sublist of the canonical order) and the
implication pins the throwing `onItemDone`. -/
theorem itemTrace_hook_order_witness :
    (itemTrace ⟨"r1", some HookOutcome.ok, ExecOutcome.returns ⟨200, 5, none⟩,
      some (HookOutcome.fails "boom"), some HookOutcome.ok⟩).Sublist
      [HookEvent.start "r1", HookEvent.done "r1", HookEvent.error "r1"] ∧
    ∃ msg,
      (⟨"r1", some HookOutcome.ok, ExecOutcome.returns ⟨200, 5, none⟩,
        some (HookOutcome.fails "boom"),
        some HookOutcome.ok⟩ : BulkItemBehavior).doneHook =
        some (HookOutcome.fails msg) := by
  have H := itemTrace_hook_order
    ⟨"r1", some HookOutcome.ok, ExecOutcome.returns ⟨200, 5, none⟩,
      some (HookOutcome.fails "boom"), some HookOutcome.ok⟩
  exact ⟨H.1, H.2 (by decide) (by decide)⟩

/-- C7 witness: a matching-hash capture is a no-op, and the second of two
identical captures changes nothing. -/
theorem captureSnapshot_idempotent_witness :
    captureSnapshot (fun n : Nat => toString n) (some ⟨[⟨1, "1", 0⟩], 0⟩) 1 9 =
      (⟨[⟨1, "1", 0⟩], 0⟩ : RevisionState Nat) ∧
    captureSnapshot (fun n : Nat => toString n)
        (some (captureSnapshot (fun n : Nat => toString n)
          (some ⟨[⟨1, "1", 0⟩], 0⟩) 2 5)) 2 6 =
      captureSnapshot (fun n : Nat => toString n) (some ⟨[⟨1, "1", 0⟩], 0⟩) 2 5 :=
  ⟨(captureSnapshot_idempotent (fun n : Nat => toString n)).1
      ⟨[⟨1, "1", 0⟩], 0⟩ ⟨1, "1", 0⟩ 1 9 (by decide) (by decide),
   (captureSnapshot_idempotent (fun n : Nat => toString n)).2
      (some ⟨[⟨1, "1", 0⟩], 0⟩) 2 5 6⟩

theorem TokenMatch.rest_length {l : List Char} (m : TokenMatch l) :
    m.rest.length < l.length := by
  have hp := m.pos
  have hlen : l.length = m.raw.length + m.rest.length := by
    rw [congrArg List.length m.consumed, List.length_append]
  omega

theorem TokenMatch.rest_subset {l : List Char} (m : TokenMatch l) :
    ∀ x ∈ m.rest, x ∈ l := by
  intro x hx
  rw [m.consumed]
  exact List.mem_append_right _ hx

theorem TokenMatch.raw_subset {l : List Char} (m : TokenMatch l) :
    ∀ x ∈ m.raw, x ∈ l := by
  intro x hx
  rw [m.consumed]
  exact List.mem_append_left _ hx

theorem TokenMatch.rest_drop {l : List Char} (m : TokenMatch l) :
    m.rest = l.drop m.raw.length := by
  conv_lhs => rw [← List.drop_left m.raw m.rest]
  rw [← m.consumed]

/-- A dollar-brace match requires a leading dollar. -/
theorem matchDollar_none_of_head {c : Char} (hc : c ≠ '$') :
    ∀ cs : List Char, matchDollar (c :: cs) = none := by
  intro cs
  rcases cs with _ | ⟨c2, r0⟩
  · rfl
  · simp only [matchDollar]
    rw [if_neg]
    intro h
    exact hc h.1

/-- The fuel argument of `replacePassGo` is irrelevant past the input
length: a match always consumes at least one character. -/
theorem replacePassGo_irrel (syn : TokenSyntax)
    (vs : List (String × Option String)) :
    ∀ (k f1 f2 : Nat) (l : List Char), l.length ≤ k → l.length ≤ f1 →
      l.length ≤ f2 →
      replacePassGo syn vs f1 l = replacePassGo syn vs f2 l := by
  intro k
  induction k with
  | zero =>
    intro f1 f2 l hk h1 h2
    have hl : l = [] := List.length_eq_zero.mp (Nat.le_zero.mp hk)
    subst hl
    cases f1 <;> cases f2 <;> rfl
  | succ k ih =>
    intro f1 f2 l hk h1 h2
    rcases l with _ | ⟨c, cs⟩
    · cases f1 <;> cases f2 <;> rfl
    · rcases f1 with _ | g1
      · exact absurd h1 (by simp)
      · rcases f2 with _ | g2
        · exact absurd h2 (by simp)
        · have hk' : cs.length ≤ k := by
            simp only [List.length_cons] at hk
            omega
          have h1' : cs.length ≤ g1 := by
            simp only [List.length_cons] at h1
            omega
          have h2' : cs.length ≤ g2 := by
            simp only [List.length_cons] at h2
            omega
          simp only [replacePassGo]
          rcases hm : tokenMatch syn (c :: cs) with _ | m
          · rw [ih g1 g2 cs hk' h1' h2']
          · have hr : m.rest.length ≤ cs.length := by
              have := m.rest_length
              simp only [List.length_cons] at this
              omega
            have hrec := ih g1 g2 m.rest (Nat.le_trans hr hk')
              (Nat.le_trans hr h1') (Nat.le_trans hr h2')
            rcases hlook : lookupValue vs m.key with _ | ov
            · dsimp only
              rw [hrec]
            · rcases ov with _ | v
              · dsimp only
                rw [hrec]
              · dsimp only
                rw [hrec]

/-- The same for `specRenderGo`. -/
theorem specRenderGo_irrel (vs : List (String × Option String)) :
    ∀ (k f1 f2 : Nat) (l : List Char), l.length ≤ k → l.length ≤ f1 →
      l.length ≤ f2 →
      specRenderGo vs f1 l = specRenderGo vs f2 l := by
  intro k
  induction k with
  | zero =>
    intro f1 f2 l hk h1 h2
    have hl : l = [] := List.length_eq_zero.mp (Nat.le_zero.mp hk)
    subst hl
    cases f1 <;> cases f2 <;> rfl
  | succ k ih =>
    intro f1 f2 l hk h1 h2
    rcases l with _ | ⟨c, cs⟩
    · cases f1 <;> cases f2 <;> rfl
    · rcases f1 with _ | g1
      · exact absurd h1 (by simp)
      · rcases f2 with _ | g2
        · exact absurd h2 (by simp)
        · have hk' : cs.length ≤ k := by
            simp only [List.length_cons] at hk
            omega
          have h1' : cs.length ≤ g1 := by
            simp only [List.length_cons] at h1
            omega
          have h2' : cs.length ≤ g2 := by
            simp only [List.length_cons] at h2
            omega
          simp only [specRenderGo]
          rcases hm : matchEither (c :: cs) with _ | m
          · rw [ih g1 g2 cs hk' h1' h2']
          · have hr : m.rest.length ≤ cs.length := by
              have := m.rest_length
              simp only [List.length_cons] at this
              omega
            have hrec := ih g1 g2 m.rest (Nat.le_trans hr hk')
              (Nat.le_trans hr h1') (Nat.le_trans hr h2')
            rcases hlook : lookupValue vs m.key with _ | ov
            · dsimp only
              rw [hrec]
            · rcases ov with _ | v
              · dsimp only
                rw [hrec]
              · dsimp only
                rw [hrec]

theorem replacePass_cons_none (syn : TokenSyntax)
    (vs : List (String × Option String)) (c : Char) (cs : List Char)
    (hm : tokenMatch syn (c :: cs) = none) :
    replacePass syn vs (c :: cs) =
      (c :: (replacePass syn vs cs).1, (replacePass syn vs cs).2) := by
  unfold replacePass
  simp only [List.length_cons, replacePassGo, hm]

theorem replacePass_cons_some (syn : TokenSyntax)
    (vs : List (String × Option String)) (c : Char) (cs : List Char)
    (m : TokenMatch (c :: cs)) (hm : tokenMatch syn (c :: cs) = some m) :
    replacePass syn vs (c :: cs) =
      match lookupValue vs m.key with
      | some (some v) =>
        (v.data ++ (replacePass syn vs m.rest).1,
         (replacePass syn vs m.rest).2)
      | _ =>
        (m.raw ++ (replacePass syn vs m.rest).1,
         m.key :: (replacePass syn vs m.rest).2) := by
  have hr : m.rest.length ≤ cs.length := by
    have := m.rest_length
    simp only [List.length_cons] at this
    omega
  have hirr : replacePassGo syn vs cs.length m.rest =
      replacePassGo syn vs m.rest.length m.rest :=
    replacePassGo_irrel syn vs cs.length cs.length m.rest.length m.rest hr hr
      (Nat.le_refl _)
  unfold replacePass
  simp only [List.length_cons, replacePassGo, hm]
  rcases hlook : lookupValue vs m.key with _ | ov
  · dsimp only
    rw [hirr]
  · rcases ov with _ | v
    · dsimp only
      rw [hirr]
    · dsimp only
      rw [hirr]

theorem specRenderL_cons_none (vs : List (String × Option String)) (c : Char)
    (cs : List Char) (hm : matchEither (c :: cs) = none) :
    specRenderL vs (c :: cs) =
      (c :: (specRenderL vs cs).1, (specRenderL vs cs).2) := by
  unfold specRenderL
  simp only [List.length_cons, specRenderGo, hm]

theorem specRenderL_cons_some (vs : List (String × Option String)) (c : Char)
    (cs : List Char) (m : TokenMatch (c :: cs))
    (hm : matchEither (c :: cs) = some m) :
    specRenderL vs (c :: cs) =
      match lookupValue vs m.key with
      | some (some v) =>
        (v.data ++ (specRenderL vs m.rest).1, (specRenderL vs m.rest).2)
      | _ =>
        (m.raw ++ (specRenderL vs m.rest).1,
         m.key :: (specRenderL vs m.rest).2) := by
  have hr : m.rest.length ≤ cs.length := by
    have := m.rest_length
    simp only [List.length_cons] at this
    omega
  have hirr : specRenderGo vs cs.length m.rest =
      specRenderGo vs m.rest.length m.rest :=
    specRenderGo_irrel vs cs.length cs.length m.rest.length m.rest hr hr
      (Nat.le_refl _)
  unfold specRenderL
  simp only [List.length_cons, specRenderGo, hm]
  rcases hlook : lookupValue vs m.key with _ | ov
  · dsimp only
    rw [hirr]
  · rcases ov with _ | v
    · dsimp only
      rw [hirr]
    · dsimp only
      rw [hirr]

/-- A dollar-free text passes through the dollar-brace pass unchanged,
reporting nothing. -/
theorem replacePass_dollar_id (vs : List (String × Option String)) :
    ∀ l : List Char, (∀ c ∈ l, c ≠ '$') →
      replacePass TokenSyntax.dollarBrace vs l = (l, []) := by
  intro l
  induction l with
  | nil => intro _; rfl
  | cons c cs ih =>
    intro hfree
    have hm : tokenMatch TokenSyntax.dollarBrace (c :: cs) = none :=
      matchDollar_none_of_head (hfree c (List.mem_cons_self c cs)) cs
    rw [replacePass_cons_none _ _ _ _ hm,
      ih (fun x hx => hfree x (List.mem_cons_of_mem c hx))]

/-- On a dollar-free input the specification-side simultaneous render is
exactly the double-curly pass. -/
theorem specRenderL_eq_double (vs : List (String × Option String)) :
    ∀ (k : Nat) (l : List Char), l.length ≤ k → (∀ c ∈ l, c ≠ '$') →
      specRenderL vs l = replacePass TokenSyntax.doubleCurly vs l := by
  intro k
  induction k with
  | zero =>
    intro l hk _
    have hl : l = [] := List.length_eq_zero.mp (Nat.le_zero.mp hk)
    subst hl
    rfl
  | succ k ih =>
    intro l hk hfree
    rcases l with _ | ⟨c, cs⟩
    · rfl
    · have hk' : cs.length ≤ k := by
        simp only [List.length_cons] at hk
        omega
      rcases hm : matchDouble (c :: cs) with _ | m
      · have hd : matchDollar (c :: cs) = none :=
          matchDollar_none_of_head (hfree c (List.mem_cons_self c cs)) cs
        have he : matchEither (c :: cs) = none := by
          simp only [matchEither, hm, hd]
        rw [specRenderL_cons_none _ _ _ he,
          replacePass_cons_none TokenSyntax.doubleCurly vs c cs
            (show tokenMatch TokenSyntax.doubleCurly (c :: cs) = none from hm),
          ih cs hk' (fun x hx => hfree x (List.mem_cons_of_mem c hx))]
      · have he : matchEither (c :: cs) = some m := by
          simp only [matchEither, hm]
        have hrk : m.rest.length ≤ k := by
          have := m.rest_length
          simp only [List.length_cons] at this
          omega
        have hrfree : ∀ x ∈ m.rest, x ≠ '$' :=
          fun x hx => hfree x (m.rest_subset x hx)
        rw [specRenderL_cons_some _ _ _ _ he,
          replacePass_cons_some TokenSyntax.doubleCurly vs c cs m
            (show tokenMatch TokenSyntax.doubleCurly (c :: cs) = some m from hm),
          ih m.rest hrk hrfree]

/-- The double-curly pass never introduces a dollar when neither the input
nor the substituted values contain one. -/
theorem replacePass_double_dollar_free (vs : List (String × Option String))
    (hv : ∀ (kk : String) (v : String), lookupValue vs kk = some (some v) →
      ∀ c ∈ v.data, c ≠ '$') :
    ∀ (k : Nat) (l : List Char), l.length ≤ k → (∀ c ∈ l, c ≠ '$') →
      ∀ c ∈ (replacePass TokenSyntax.doubleCurly vs l).1, c ≠ '$' := by
  intro k
  induction k with
  | zero =>
    intro l hk _
    have hl : l = [] := List.length_eq_zero.mp (Nat.le_zero.mp hk)
    subst hl
    intro c hc
    simp [replacePass, replacePassGo] at hc
  | succ k ih =>
    intro l hk hfree
    rcases l with _ | ⟨c, cs⟩
    · intro x hx
      simp [replacePass, replacePassGo] at hx
    · have hk' : cs.length ≤ k := by
        simp only [List.length_cons] at hk
        omega
      rcases hm : tokenMatch TokenSyntax.doubleCurly (c :: cs) with _ | m
      · rw [replacePass_cons_none _ _ _ _ hm]
        intro x hx
        rcases List.mem_cons.mp hx with rfl | hx
        · exact hfree x (List.mem_cons_self x cs)
        · exact ih cs hk' (fun y hy => hfree y (List.mem_cons_of_mem c hy)) x hx
      · have hrk : m.rest.length ≤ k := by
          have := m.rest_length
          simp only [List.length_cons] at this
          omega
        have hrfree : ∀ x ∈ m.rest, x ≠ '$' :=
          fun x hx => hfree x (m.rest_subset x hx)
        have hrec := ih m.rest hrk hrfree
        rw [replacePass_cons_some _ _ _ _ _ hm]
        rcases hlook : lookupValue vs m.key with _ | ov
        · dsimp only
          intro x hx
          rcases List.mem_append.mp hx with hx | hx
          · exact hfree x (m.raw_subset x hx)
          · exact hrec x hx
        · rcases ov with _ | v
          · dsimp only
            intro x hx
            rcases List.mem_append.mp hx with hx | hx
            · exact hfree x (m.raw_subset x hx)
            · exact hrec x hx
          · dsimp only
            intro x hx
            rcases List.mem_append.mp hx with hx | hx
            · exact hv m.key v hlook x hx
            · exact hrec x hx

/-- If no double-curly token occurs anywhere in the text, the double-curly
pass is the identity and reports nothing. -/
theorem replacePass_double_id (vs : List (String × Option String)) :
    ∀ l : List Char, (∀ i : Nat, matchDouble (l.drop i) = none) →
      replacePass TokenSyntax.doubleCurly vs l = (l, []) := by
  intro l
  induction l with
  | nil => intro _; rfl
  | cons c cs ih =>
    intro hnd
    have hm : tokenMatch TokenSyntax.doubleCurly (c :: cs) = none := by
      have := hnd 0
      simpa using this
    rw [replacePass_cons_none _ _ _ _ hm, ih (fun i => by
      have := hnd (i + 1)
      simpa using this)]

/-- If no double-curly token occurs anywhere in the text, the
specification-side simultaneous render is exactly the dollar-brace pass. -/
theorem specRenderL_eq_dollar (vs : List (String × Option String)) :
    ∀ (k : Nat) (l : List Char), l.length ≤ k →
      (∀ i : Nat, matchDouble (l.drop i) = none) →
      specRenderL vs l = replacePass TokenSyntax.dollarBrace vs l := by
  intro k
  induction k with
  | zero =>
    intro l hk _
    have hl : l = [] := List.length_eq_zero.mp (Nat.le_zero.mp hk)
    subst hl
    rfl
  | succ k ih =>
    intro l hk hnd
    rcases l with _ | ⟨c, cs⟩
    · rfl
    · have hk' : cs.length ≤ k := by
        simp only [List.length_cons] at hk
        omega
      have hm : matchDouble (c :: cs) = none := by
        have := hnd 0
        simpa using this
      rcases hd : matchDollar (c :: cs) with _ | m
      · have he : matchEither (c :: cs) = none := by
          simp only [matchEither, hm, hd]
        rw [specRenderL_cons_none _ _ _ he,
          replacePass_cons_none TokenSyntax.dollarBrace vs c cs
            (show tokenMatch TokenSyntax.dollarBrace (c :: cs) = none from hd),
          ih cs hk' (fun i => by
            have := hnd (i + 1)
            simpa using this)]
      · have he : matchEither (c :: cs) = some m := by
          simp only [matchEither, hm, hd]
        have hrk : m.rest.length ≤ k := by
          have := m.rest_length
          simp only [List.length_cons] at this
          omega
        have hrnd : ∀ i : Nat, matchDouble (m.rest.drop i) = none := by
          intro i
          rw [m.rest_drop, List.drop_drop]
          exact hnd (m.raw.length + i)
        rw [specRenderL_cons_some _ _ _ _ he,
          replacePass_cons_some TokenSyntax.dollarBrace vs c cs m
            (show tokenMatch TokenSyntax.dollarBrace (c :: cs) = some m from hd),
          ih m.rest hrk hrnd]

/-- C8 (amended): `renderTemplate` substitutes the two syntaxes in two
sequential passes — double-curly over the input, then dollar-brace over
the first pass's output — so values substituted by the first pass can be
re-matched by the second. Whenever the passes cannot interact — the input
and all context values are free of the dollar character, or the input
contains no double-curly token at all — the result is exactly the
specification's simultaneous reading: each resolvable token of the input
replaced in place, unresolvable tokens left verbatim, and `unresolved`
listing exactly the keys (first occurrences) that could not be
substituted, as computed by `specRender`. -/
theorem resolveTemplateText_matches_spec_render (input : String)
    (ctx : VariableContext)
    (h : ((∀ c ∈ input.data, c ≠ '$') ∧
          (∀ (kk v : String), lookupValue ctx.values kk = some (some v) →
            ∀ c ∈ v.data, c ≠ '$')) ∨
         (∀ i : Nat, matchDouble (input.data.drop i) = none)) :
    resolveTemplateText input ctx = specRender input ctx := by
  by_cases hempty : input = ""
  · subst hempty
    rfl
  · rcases h with ⟨hin, hv⟩ | hnd
    · have hp1free : ∀ c ∈ (replacePass TokenSyntax.doubleCurly ctx.values
          input.data).1, c ≠ '$' :=
        replacePass_double_dollar_free ctx.values hv input.data.length
          input.data (Nat.le_refl _) hin
      have hp2 := replacePass_dollar_id ctx.values
        (replacePass TokenSyntax.doubleCurly ctx.values input.data).1 hp1free
      have hspec := specRenderL_eq_double ctx.values input.data.length
        input.data (Nat.le_refl _) hin
      unfold resolveTemplateText specRender
      rw [if_neg hempty]
      dsimp only
      rw [hp2, hspec]
      simp
    · have hp1 := replacePass_double_id ctx.values input.data hnd
      have hspec := specRenderL_eq_dollar ctx.values input.data.length
        input.data (Nat.le_refl _) hnd
      unfold resolveTemplateText specRender
      rw [if_neg hempty]
      dsimp only
      rw [hp1, hspec]
      simp

/-- C8 witness: the specification's own example — context `x = "1"` on
input with tokens `x` and `y` renders to `1` and a verbatim `y` token,
with `y` reported unresolved. -/
theorem resolveTemplateText_matches_spec_render_witness :
    resolveTemplateText "{{x}} {{y}}" ⟨[("x", some "1")], none⟩ =
      specRender "{{x}} {{y}}" ⟨[("x", some "1")], none⟩ ∧
    resolveTemplateText "{{x}} {{y}}" ⟨[("x", some "1")], none⟩ =
      ("1 {{y}}", ["y"]) := by
  refine ⟨resolveTemplateText_matches_spec_render "{{x}} {{y}}"
    ⟨[("x", some "1")], none⟩ (Or.inl ⟨by decide, ?_⟩), by decide⟩
  intro kk v hlook
  unfold lookupValue at hlook
  simp only [List.lookup] at hlook
  cases hkk : (kk == "x") with
  | true =>
    simp only [hkk] at hlook
    obtain rfl : v = "1" := by
      injection hlook with h
      injection h with h2
      exact h2.symm
    intro c hc
    have hc1 : c = '1' := by simpa using hc
    subst hc1
    decide
  | false =>
    simp [hkk] at hlook

/-- C8 counterexample: with `x = "${y}"` and `y = "Z"` the implementation
substitutes `x` in the first pass and then re-substitutes the produced
`${y}` in the second pass, yielding `Z`; the claim's in-place reading
leaves `${y}` in the output. -/
theorem resolveTemplateText_two_pass_counterexample :
    resolveTemplateText "{{x}}"
      ⟨[("x", some "${y}"), ("y", some "Z")], none⟩ = ("Z", []) ∧
    specRender "{{x}}"
      ⟨[("x", some "${y}"), ("y", some "Z")], none⟩ = ("${y}", []) ∧
    ("Z" : String) ≠ "${y}" :=
  ⟨by decide, by decide, by decide⟩

end LiteFetch
